import Mathlib

/-!
Shallow embedding of the crate-rental simulation engine
(`synthetic/state_machine.py`, `synthetic/pool_sampling.py`,
`synthetic/records.py`) and proofs about it.

Randomness is resolved through explicit oracles: every value the python code
obtains from `np.random` is a parameter of the corresponding Lean function.
Python exceptions (`AssertionError` from `FIFO.egress`, `KeyError` from
`dict.pop`, `AttributeError` on a missing trip) are modelled by `Option`.
-/

namespace Synthetic

/-- States of the crate state machine (the `states` list in `state_machine.py`). -/
inductive CRTState
  | home
  | rented
  | lost
deriving DecidableEq, Repr

/-- Model of `records.Trip`. The auto-incremented trip id is not modelled (no claim
refers to it); calendar dates are modelled as integers (day numbers). -/
structure Trip where
  crt_id : Nat
  created_at : Int
  states : List (CRTState × Int)
deriving DecidableEq, Repr

/-- Model of `state_machine.CRT`. The `transitions.Machine` base class is modelled by
the explicit `state` field; invocations of `reporting_callback` are made observable by
returning the list of reported trips from each operation. -/
structure CRT where
  id : Nat
  state : CRTState
  created_at : Int
  trip : Option Trip
deriving DecidableEq, Repr

/-- Model of `CRT.lose`: appends `(lost, day)` to the current trip and forces the state
to `lost` (`to_lost` is an auto-generated trigger valid from any state). When
`self.trip` is `None` python raises `AttributeError`; that failure is `none`.
The second component is the sequence of `reporting_callback` invocations: `lose`
performs none. -/
def CRT.lose (day : Int) (c : CRT) : Option (CRT × List Trip) :=
  match c.trip with
  | none => none
  | some t =>
      some ({ c with
              state := CRTState.lost,
              trip := some { t with states := t.states ++ [(CRTState.lost, day)] } }, [])

/-- Model of `CRT.next`: from `home` it opens a trip (reporting it) and rents; from
`rented` it appends `(home, day)` to the trip (reporting it), detaches the trip and
recalls; otherwise it calls `self.lose(day)`. -/
def CRT.next (day : Int) (c : CRT) : Option (CRT × List Trip) :=
  match c.state with
  | CRTState.home =>
      let t : Trip := { crt_id := c.id, created_at := day, states := [(CRTState.rented, day)] }
      some ({ c with state := CRTState.rented, trip := some t }, [t])
  | CRTState.rented =>
      match c.trip with
      | none => none
      | some t =>
          let t2 := { t with states := t.states ++ [(CRTState.home, day)] }
          some ({ c with state := CRTState.home, trip := none }, [t2])
  | CRTState.lost => CRT.lose day c

/-- State of `pool_sampling.FIFO`: the python dict `{0: arr, ..., delay: arr}` of
buckets is modelled as a list of buckets indexed from `0` to `delay`. -/
structure FIFOState where
  delay : Nat
  buckets : List (List Nat)
deriving DecidableEq, Repr

namespace FIFO

/-- Model of `FIFO.__init__(delay)`. -/
def init (delay : Nat) : FIFOState :=
  { delay := delay, buckets := List.replicate (delay + 1) [] }

/-- Bucket `0`, the bucket of due elements. -/
def bucket0 (s : FIFOState) : List Nat := s.buckets.getD 0 []

/-- Model of `FIFO.ingress`: append to bucket `delay`. -/
def ingress (id : Nat) (s : FIFOState) : FIFOState :=
  { s with buckets := s.buckets.set s.delay (s.buckets.getD s.delay [] ++ [id]) }

/-- Model of `FIFO.egress`: the `assert id in self.pool[0]` failure is `none`; on
success every occurrence of `id` is removed from bucket `0`. -/
def egress (id : Nat) (s : FIFOState) : Option FIFOState :=
  if id ∈ bucket0 s then
    some { s with buckets := s.buckets.set 0 ((bucket0 s).filter (fun x => x ≠ id)) }
  else none

/-- Model of `FIFO.remove`: remove `id` from every bucket. -/
def remove (id : Nat) (s : FIFOState) : FIFOState :=
  { s with buckets := s.buckets.map (fun b => b.filter (fun x => x ≠ id)) }

/-- The aging step performed by every `FIFO.draw` call when `delay > 0`:
`pool[0] = concat(pool[0], pool[1])`, every other bucket shifts one step toward `0`,
and bucket `delay` becomes empty. -/
def advance (s : FIFOState) : FIFOState :=
  if s.delay = 0 then s
  else
    match s.buckets with
    | b0 :: b1 :: rest => { s with buckets := (b0 ++ b1) :: (rest ++ [[]]) }
    | other => { s with buckets := other }

/-- Model of `FIFO.draw(n)`: the drawn elements are the first `n` of bucket `0`
(all of bucket `0` when `n` exceeds its length), taken before the buckets advance. -/
def draw (n : Nat) (s : FIFOState) : List Nat × FIFOState :=
  ((bucket0 s).take n, advance s)

/-- All members of the FIFO structure, over every bucket. -/
def members (s : FIFOState) : List Nat := s.buckets.flatten

/-- A sequence of `draw` calls with the given budgets, collecting each call's result. -/
def drawSeq : List Nat → FIFOState → List (List Nat) × FIFOState
  | [], s => ([], s)
  | n :: ns, s =>
      let d := draw n s
      let r := drawSeq ns d.2
      (d.1 :: r.1, r.2)

end FIFO

/-- Membership structure of `pool_sampling.LogNormal`: an insertion-ordered association
list modelling the python dict `id -> steps`. Countdowns are modelled as rationals; the
value stored at ingress, `np.log(np.random.lognormal(mean, std))`, is supplied by the
random oracle — see `storedSteps` for its structure. -/
abbrev LNState := List (Nat × ℚ)

namespace LN

/-- The keys of the dict, in insertion order. -/
def keys (s : LNState) : List Nat := s.map Prod.fst

/-- Dict assignment `self.pool[id] = n`: overwrite in place when the key exists,
otherwise append. -/
def ingress (id : Nat) (v : ℚ) (s : LNState) : LNState :=
  if id ∈ keys s then s.map (fun p => if p.1 = id then (id, v) else p)
  else s ++ [(id, v)]

/-- Model of `LogNormal.egress` and `LogNormal.remove` (both `self.pool.pop(id)`):
`none` models the `KeyError` on a missing key. -/
def egress (id : Nat) (s : LNState) : Option LNState :=
  if id ∈ keys s then some (s.filter (fun p => p.1 ≠ id)) else none

/-- Model of `LogNormal.draw`: it ignores the requested count `n`; it returns the ids
whose countdown is already below zero and then decrements every countdown by one. -/
def draw (n : Option Nat) (s : LNState) : List Nat × LNState :=
  ((s.filter (fun p => p.2 < 0)).map Prod.fst, s.map (fun p => (p.1, p.2 - 1)))

end LN

namespace Sink

/-- Model of `PoolSampling.ingress` (inherited by `Sink`): append to the array. -/
def ingress (id : Nat) (s : List Nat) : List Nat := s ++ [id]

/-- Model of `PoolSampling.egress` (inherited by `Sink`): remove every occurrence. -/
def egress (id : Nat) (s : List Nat) : List Nat := s.filter (fun x => x ≠ id)

/-- Model of `Sink.draw`: always empty, pool untouched. -/
def draw (n : Option Nat) (s : List Nat) : List Nat × List Nat := ([], s)

end Sink

/-- State of `pool_sampling.ConstantDelay`: the python dict `id -> steps` with integer
countdowns (they go negative after the element's due tick). -/
structure CDState where
  k : Nat
  pool : List (Nat × Int)
deriving DecidableEq, Repr

namespace CD

/-- The keys of the dict, in insertion order. -/
def keys (s : CDState) : List Nat := s.pool.map Prod.fst

/-- Model of `ConstantDelay.ingress`: `self.pool[id] = self.k`. -/
def ingress (id : Nat) (s : CDState) : CDState :=
  if id ∈ keys s then
    { s with pool := s.pool.map (fun p => if p.1 = id then (id, (s.k : Int)) else p) }
  else { s with pool := s.pool ++ [(id, (s.k : Int))] }

/-- Model of `ConstantDelay.egress`: `self.pool.pop(id)`, `none` on `KeyError`. -/
def egress (id : Nat) (s : CDState) : Option CDState :=
  if id ∈ keys s then some { s with pool := s.pool.filter (fun p => p.1 ≠ id) } else none

/-- Model of `ConstantDelay.draw`: ignores the requested count `n`; returns the ids
whose countdown equals exactly zero, then decrements every countdown. -/
def draw (n : Option Nat) (s : CDState) : List Nat × CDState :=
  ((s.pool.filter (fun p => p.2 = 0)).map Prod.fst,
   { s with pool := s.pool.map (fun p => (p.1, p.2 - 1)) })

/-- The state after `j` successive `draw` calls. -/
def iterDraws : Nat → CDState → CDState
  | 0, s => s
  | j + 1, s => iterDraws j (draw none s).2

end CD

/-- Model of `Scrambling.draw`: when `n` exceeds the membership size the whole pool is
returned; otherwise `np.random.choice(self.pool, n)` draws `n` independent uniformly
random indices **with replacement** (the numpy default is `replace=True`), modelled by
the oracle index sequence `picks`. -/
def Scrambling.draw (n : Nat) (picks : List Nat) (pool : List Nat) : List Nat :=
  if n > pool.length then pool else picks.map (fun i => pool.getD i 0)

/-- Structure of `np.random.lognormal(mean, std)`: it returns `exp y` where `y` is a
sample of the underlying normal distribution `Normal(mean, std)`. -/
noncomputable def lognormalSample (y : ℝ) : ℝ := Real.exp y

/-- The countdown value computed by `LogNormal.ingress`:
`np.log(np.random.lognormal(self.mean, self.std))`, as a function of the underlying
normal sample `y`. -/
noncomputable def storedSteps (y : ℝ) : ℝ := Real.log (lognormalSample y)

/-- The census dictionary returned by `CRTPool.report` and `CRTPool.proceed`. -/
structure Census where
  home : Nat
  rented : Nat
  lost : Nat
deriving DecidableEq, Repr

/-- Model of `CRTPool.report`: count of crates currently in each state. -/
def report (pool : List CRT) : Census :=
  { home := (pool.filter (fun c => c.state = CRTState.home)).length,
    rented := (pool.filter (fun c => c.state = CRTState.rented)).length,
    lost := (pool.filter (fun c => c.state = CRTState.lost)).length }

/-- Model of the `CRTPool` object. The three `state_pools` entries of the default
configuration are a `FIFO(delay=7)` for `home`, a `LogNormal` for `rented` and a
`Sink` for `lost`. The class-level `CRT._id_counter` is modelled by `nextId` (scoped
to one pool, which is faithful for a single-pool run). The three rate fields are
stored but only read through `np.random`, which the oracles resolve. -/
structure PoolState where
  pool : List CRT
  fifoHome : FIFOState
  lnRented : LNState
  sinkLost : List Nat
  date : Int
  nextId : Nat
  mean_trip_duration : ℚ
  shrinkage_rate : ℚ
  replenishment_rate : ℚ
deriving DecidableEq, Repr

/-- One tick's worth of randomness, resolved up front: `loss id` is the outcome of
`np.random.rand() < self.shrinkage_rate` for the rented crate `id`; `countdown id` is
the value `np.log(np.random.lognormal(...))` stored if crate `id` is ingressed into
the rented pool this tick; `replenish` is the `np.random.poisson` draw. -/
structure TickOracle where
  loss : Nat → Bool
  countdown : Nat → ℚ
  replenish : Nat

/-- The three per-state selection structures, threaded through the daily loop. -/
structure SubPools where
  fifoHome : FIFOState
  lnRented : LNState
  sinkLost : List Nat
deriving DecidableEq, Repr

/-- Dispatch of `self.state_pools[st].egress(id)`; a failure (`AssertionError` for the
FIFO, `KeyError` for the dict pop) is `none`. -/
def egressFrom (st : CRTState) (id : Nat) (sp : SubPools) : Option SubPools :=
  match st with
  | CRTState.home => (FIFO.egress id sp.fifoHome).map (fun f => { sp with fifoHome := f })
  | CRTState.rented => (LN.egress id sp.lnRented).map (fun l => { sp with lnRented := l })
  | CRTState.lost => some { sp with sinkLost := Sink.egress id sp.sinkLost }

/-- Dispatch of `self.state_pools[st].ingress(id)`; ingress into the rented pool stores
the oracle countdown `v`. -/
def ingressInto (st : CRTState) (id : Nat) (v : ℚ) (sp : SubPools) : SubPools :=
  match st with
  | CRTState.home => { sp with fifoHome := FIFO.ingress id sp.fifoHome }
  | CRTState.rented => { sp with lnRented := LN.ingress id v sp.lnRented }
  | CRTState.lost => { sp with sinkLost := Sink.ingress id sp.sinkLost }

/-- Lookup `requests[crt.state]`. -/
def requestFor (st : CRTState) (reqHome reqRented reqLost : List Nat) : List Nat :=
  match st with
  | CRTState.home => reqHome
  | CRTState.rented => reqRented
  | CRTState.lost => reqLost

/-- The body of the `for crt in self.pool` loop in `CRTPool.proceed`: a rented crate is
first subjected to the shrinkage coin flip (removal from the rented pool, `lose`, and
ingress into the lost pool, then `continue`); otherwise, a crate whose id occurs in the
request drawn for its state egresses, advances via `CRT.next`, and ingresses into the
policy of its new state. -/
def stepCRT (reqHome reqRented reqLost : List Nat) (day : Int) (o : TickOracle)
    (sp : SubPools) (c : CRT) : Option (SubPools × CRT) :=
  if c.state = CRTState.rented ∧ o.loss c.id = true then do
    let ln2 ← LN.egress c.id sp.lnRented
    let r ← CRT.lose day c
    some ({ sp with
            lnRented := ln2,
            sinkLost := Sink.ingress c.id sp.sinkLost }, r.1)
  else if c.id ∈ requestFor c.state reqHome reqRented reqLost then do
    let sp2 ← egressFrom c.state c.id sp
    let r ← CRT.next day c
    some (ingressInto r.1.state r.1.id (o.countdown r.1.id) sp2, r.1)
  else
    some (sp, c)

/-- The whole `for crt in self.pool` loop, threading the selection structures and
rebuilding the crate list in order. -/
def processPool (reqHome reqRented reqLost : List Nat) (day : Int) (o : TickOracle) :
    List CRT → SubPools → Option (SubPools × List CRT)
  | [], sp => some (sp, [])
  | c :: cs, sp => do
    let r1 ← stepCRT reqHome reqRented reqLost day o sp c
    let r2 ← processPool reqHome reqRented reqLost day o cs r1.1
    some (r2.1, r1.2 :: r2.2)

/-- Model of `CRTPool.add_crt`: ingress the crate's id into the structure of its
current state and append the crate to the pool; `v` is the rented-policy countdown
oracle (unused for a `home` crate). -/
def add_crt (c : CRT) (v : ℚ) (s : PoolState) : PoolState :=
  let sp := ingressInto c.state c.id v ⟨s.fifoHome, s.lnRented, s.sinkLost⟩
  { s with
    pool := s.pool ++ [c],
    fifoHome := sp.fifoHome, lnRented := sp.lnRented, sinkLost := sp.sinkLost }

/-- Creation of one replenishment crate, `CRT(self.date, reporting_callback=...)`,
followed by `self.add_crt(crt)`: a fresh id from the class counter, state `home`,
no trip. -/
def addNew (s : PoolState) : PoolState :=
  { add_crt ⟨s.nextId, CRTState.home, s.date, none⟩ 0 s with nextId := s.nextId + 1 }

/-- Model of `CRTPool.proceed(demand)`: draw the per-state requests (each draw also
mutates its structure), run the loop over the crates, add the replenishment crates,
advance the date by one day, and return the census. Scope of the oracle: `o.replenish`
stands for a successful `np.random.poisson(self.replenishment_rate)` draw and
`o.countdown` for a successful `np.random.lognormal` draw, so this model covers the
parameter sets on which those numpy calls return (for a negative replenishment rate
the source's poisson call raises `ValueError` at the replenishment step of every tick,
after the loop and before the date advance — that error path is not modelled here). -/
def proceed (demand : Nat) (o : TickOracle) (s : PoolState) : Option (PoolState × Census) := do
  let dHome := FIFO.draw demand s.fifoHome
  let dRented := LN.draw (some demand) s.lnRented
  let dLost := Sink.draw (some demand) s.sinkLost
  let r ← processPool dHome.1 dRented.1 dLost.1 s.date o s.pool ⟨dHome.2, dRented.2, dLost.2⟩
  let s2 : PoolState :=
    { s with
      pool := r.2,
      fifoHome := r.1.fifoHome, lnRented := r.1.lnRented, sinkLost := r.1.sinkLost }
  let s3 := (List.range o.replenish).foldl (fun t _ => addNew t) s2
  let s4 := { s3 with date := s3.date + 1 }
  some (s4, report s4.pool)

/-- Model of `CRTPool.__init__`: note that it performs NO validation of its arguments.
Initial crates take ids `1..n_crates` from the class counter and all start `home`,
ingressed into the `home` FIFO. (The curious python default `created_at=date` — the
class object — for initial crates is modelled as the start date; no claim reads it.) -/
def mkCRTPool (n_crates : Nat) (mean_trip_duration daily_loss_rate replenishment_rate : ℚ)
    (start_date : Int) : PoolState :=
  let ids := (List.range n_crates).map (fun i => i + 1)
  { pool := ids.map (fun i => ⟨i, CRTState.home, start_date, none⟩),
    fifoHome := ids.foldl (fun f i => FIFO.ingress i f) (FIFO.init 7),
    lnRented := [],
    sinkLost := [],
    date := start_date,
    nextId := n_crates + 1,
    mean_trip_duration := mean_trip_duration,
    shrinkage_rate := daily_loss_rate,
    replenishment_rate := replenishment_rate }

/-- A whole simulation run: one `proceed` per tick, with each tick's demand and
resolved randomness. -/
def runPool : PoolState → List (Nat × TickOracle) → Option PoolState
  | s, [] => some s
  | s, t :: ts => do
    let r ← proceed t.1 t.2 s
    runPool r.1 ts

/-- The pool states reachable through the public operations: construction, `proceed`
ticks, and addition of a freshly created crate via `add_crt`. -/
inductive Reachable : PoolState → Prop where
  | init (n : Nat) (m dl rr : ℚ) (sd : Int) : Reachable (mkCRTPool n m dl rr sd)
  | step (s : PoolState) (demand : Nat) (o : TickOracle) (r : PoolState × Census)
      (hs : Reachable s) (h : proceed demand o s = some r) : Reachable r.1
  | extend (s : PoolState) (hs : Reachable s) : Reachable (addNew s)

/-! ### List bookkeeping helpers -/

/-- Filtering out a present element of a duplicate-free list is `erase`. -/
theorem filter_ne_eq_erase (l : List Nat) (x : Nat) (h : l.Nodup) :
    l.filter (fun y => y ≠ x) = l.erase x := by
  induction l with
  | nil => rfl
  | cons a as ih =>
      rcases List.nodup_cons.mp h with ⟨ha, hnd⟩
      by_cases hax : a = x
      · subst hax
        rw [List.erase_cons_head]
        simp only [List.filter_cons, decide_not]
        simp only [decide_True, Bool.not_true, if_false]
        exact List.filter_eq_self.mpr (fun y hy => by
          simp only [decide_eq_true_eq, decide_not, Bool.not_eq_true']
          simp only [decide_eq_false_iff_not]
          exact fun hyx => ha (hyx ▸ hy))
      · rw [List.erase_cons_tail (by simpa using hax)]
        simp only [List.filter_cons]
        rw [if_pos (by simpa using hax), ih hnd]

/-- Moving an element out of the head of the last block into the first of four blocks. -/
theorem perm_block_one (a : Nat) (A B C D : List Nat) :
    (A ++ (B ++ (C ++ (a :: D)))).Perm ((A ++ [a]) ++ (B ++ (C ++ D))) := by
  have h1 : (B ++ (C ++ (a :: D))).Perm (a :: (B ++ (C ++ D))) := by
    simpa [List.append_assoc] using @List.perm_middle Nat a (B ++ C) D
  have h2 := List.Perm.append_left A h1
  simpa [List.append_assoc] using h2

/-- Moving an element out of the head of the last block into the second of four blocks. -/
theorem perm_block_two (a : Nat) (A B C D : List Nat) :
    (A ++ (B ++ (C ++ (a :: D)))).Perm (A ++ ((B ++ [a]) ++ (C ++ D))) := by
  have h1 : (C ++ (a :: D)).Perm (a :: (C ++ D)) := @List.perm_middle Nat a C D
  have h2 := List.Perm.append_left A (List.Perm.append_left B h1)
  simpa [List.append_assoc] using h2

/-- Moving an element out of the head of the last block into the third of four blocks
(pure reassociation). -/
theorem perm_block_three (a : Nat) (A B C D : List Nat) :
    (A ++ (B ++ (C ++ (a :: D)))).Perm (A ++ (B ++ ((C ++ [a]) ++ D))) := by
  simp

/-- Moving a newly appended element into the middle block it belongs to. -/
theorem perm_snoc_mid (a : Nat) (X Y : List Nat) :
    ((X ++ Y) ++ [a]).Perm ((X ++ [a]) ++ Y) := by
  have h1 : (Y ++ [a]).Perm ([a] ++ Y) := List.perm_append_comm
  have h2 := List.Perm.append_left X h1
  simpa [List.append_assoc] using h2

/-! ### Ids per state -/

/-- All crate ids in the pool list. -/
def poolIds (pool : List CRT) : List Nat := pool.map CRT.id

/-- The ids of the crates currently in state `st`. -/
def idsInState (st : CRTState) (pool : List CRT) : List Nat :=
  (pool.filter (fun c => c.state = st)).map CRT.id

theorem idsInState_nil (st : CRTState) : idsInState st [] = [] := rfl

theorem idsInState_cons_self {c : CRT} {st : CRTState} (h : c.state = st) (cs : List CRT) :
    idsInState st (c :: cs) = c.id :: idsInState st cs := by
  simp [idsInState, List.filter_cons, h]

theorem idsInState_cons_ne {c : CRT} {st : CRTState} (h : ¬ c.state = st) (cs : List CRT) :
    idsInState st (c :: cs) = idsInState st cs := by
  simp [idsInState, List.filter_cons, h]

theorem idsInState_append (st : CRTState) (l1 l2 : List CRT) :
    idsInState st (l1 ++ l2) = idsInState st l1 ++ idsInState st l2 := by
  simp [idsInState]

theorem idsInState_sublist (st : CRTState) (pool : List CRT) :
    (idsInState st pool).Sublist (poolIds pool) :=
  List.Sublist.map CRT.id (List.filter_sublist pool)

/-- The three per-state id lists partition the pool's ids. -/
theorem idsInState_partition (pool : List CRT) :
    (idsInState CRTState.home pool ++
      (idsInState CRTState.rented pool ++ idsInState CRTState.lost pool)).Perm
      (poolIds pool) := by
  induction pool with
  | nil => simp [idsInState, poolIds]
  | cons c cs ih =>
      have hp : poolIds (c :: cs) = c.id :: poolIds cs := rfl
      cases hc : c.state
      · rw [idsInState_cons_self hc, idsInState_cons_ne (by simp [hc]),
          idsInState_cons_ne (by simp [hc]), hp]
        exact ih.cons c.id
      · rw [idsInState_cons_ne (by simp [hc]), idsInState_cons_self hc,
          idsInState_cons_ne (by simp [hc]), hp]
        refine List.Perm.trans ?_ (ih.cons c.id)
        simpa [List.append_assoc] using
          @List.perm_middle Nat c.id (idsInState CRTState.home cs)
            (idsInState CRTState.rented cs ++ idsInState CRTState.lost cs)
      · rw [idsInState_cons_ne (by simp [hc]), idsInState_cons_ne (by simp [hc]),
          idsInState_cons_self hc, hp]
        refine List.Perm.trans ?_ (ih.cons c.id)
        simpa [List.append_assoc] using
          @List.perm_middle Nat c.id
            (idsInState CRTState.home cs ++ idsInState CRTState.rented cs)
            (idsInState CRTState.lost cs)

/-! ### FIFO structure lemmas -/

theorem FIFO.delay_advance (s : FIFOState) : (FIFO.advance s).delay = s.delay := by
  obtain ⟨d, bs⟩ := s
  by_cases hd : d = 0
  · simp [FIFO.advance, hd]
  · cases bs with
    | nil => simp [FIFO.advance, hd]
    | cons b0 rest => cases rest with
      | nil => simp [FIFO.advance, hd]
      | cons b1 rest2 => simp [FIFO.advance, hd]

theorem FIFO.blen_advance (s : FIFOState) (h : s.buckets.length = s.delay + 1) :
    (FIFO.advance s).buckets.length = (FIFO.advance s).delay + 1 := by
  rw [FIFO.delay_advance]
  obtain ⟨d, bs⟩ := s
  simp only at h ⊢
  by_cases hd : d = 0
  · simpa [FIFO.advance, hd] using h
  · cases bs with
    | nil => simp at h <;> omega
    | cons b0 rest => cases rest with
      | nil => simp at h <;> omega
      | cons b1 rest2 => simp [FIFO.advance, hd] at h ⊢; omega

theorem FIFO.members_advance (s : FIFOState) (h : s.buckets.length = s.delay + 1) :
    FIFO.members (FIFO.advance s) = FIFO.members s := by
  obtain ⟨d, bs⟩ := s
  simp only at h
  by_cases hd : d = 0
  · simp [FIFO.advance, hd]
  · cases bs with
    | nil => simp at h <;> omega
    | cons b0 rest => cases rest with
      | nil => simp at h <;> omega
      | cons b1 rest2 =>
          simp [FIFO.advance, FIFO.members, hd, List.flatten_append, List.append_assoc]

theorem FIFO.bucket0_advance (s : FIFOState) {x : Nat} (hx : x ∈ FIFO.bucket0 s) :
    x ∈ FIFO.bucket0 (FIFO.advance s) := by
  obtain ⟨d, bs⟩ := s
  by_cases hd : d = 0
  · simpa [FIFO.advance, hd] using hx
  · cases bs with
    | nil => simp [FIFO.bucket0] at hx
    | cons b0 rest => cases rest with
      | nil => simpa [FIFO.advance, hd] using hx
      | cons b1 rest2 =>
          simp only [FIFO.bucket0, List.getD_cons_zero] at hx
          simp only [FIFO.advance, hd, if_false, FIFO.bucket0, List.getD_cons_zero]
          exact List.mem_append_left b1 hx

/-- Flattening after appending an element inside bucket `i`. -/
theorem flatten_set_snoc (l : List (List Nat)) (i : Nat) (x : Nat) (h : i < l.length) :
    ((l.set i (l.getD i [] ++ [x])).flatten).Perm (l.flatten ++ [x]) := by
  induction l generalizing i with
  | nil => simp at h
  | cons b bs ih =>
      cases i with
      | zero =>
          simp only [List.getD_cons_zero, List.set_cons_zero, List.flatten_cons]
          have h1 : ([x] ++ bs.flatten).Perm (bs.flatten ++ [x]) := List.perm_append_comm
          have h2 := List.Perm.append_left b h1
          simpa [List.append_assoc] using h2
      | succ j =>
          simp only [List.getD_cons_succ, List.set_cons_succ, List.flatten_cons]
          have hj : j < bs.length := by simpa using h
          have h2 := List.Perm.append_left b (ih j hj)
          simpa [List.append_assoc] using h2

theorem FIFO.delay_ingress (x : Nat) (s : FIFOState) :
    (FIFO.ingress x s).delay = s.delay := rfl

theorem FIFO.blen_ingress (x : Nat) (s : FIFOState) :
    (FIFO.ingress x s).buckets.length = s.buckets.length := by
  simp [FIFO.ingress]

theorem FIFO.members_ingress (x : Nat) (s : FIFOState)
    (h : s.buckets.length = s.delay + 1) :
    (FIFO.members (FIFO.ingress x s)).Perm (FIFO.members s ++ [x]) := by
  have := flatten_set_snoc s.buckets s.delay x (by omega)
  simpa [FIFO.ingress, FIFO.members] using this

theorem FIFO.bucket0_ingress (x : Nat) (s : FIFOState) {y : Nat}
    (hy : y ∈ FIFO.bucket0 s) : y ∈ FIFO.bucket0 (FIFO.ingress x s) := by
  obtain ⟨d, bs⟩ := s
  cases bs with
  | nil => simp [FIFO.bucket0] at hy
  | cons b0 rest =>
      simp only [FIFO.bucket0, List.getD_cons_zero] at hy
      cases d with
      | zero =>
          simp only [FIFO.ingress, FIFO.bucket0, List.getD_cons_zero,
            List.set_cons_zero]
          exact List.mem_append_left [x] hy
      | succ k =>
          simpa [FIFO.ingress, FIFO.bucket0, List.set_cons_succ] using hy

theorem FIFO.bucket0_subset_members (s : FIFOState) {x : Nat}
    (hx : x ∈ FIFO.bucket0 s) : x ∈ FIFO.members s := by
  obtain ⟨d, bs⟩ := s
  cases bs with
  | nil => simp [FIFO.bucket0] at hx
  | cons b0 rest =>
      simp only [FIFO.bucket0, List.getD_cons_zero] at hx
      simp only [FIFO.members, List.flatten_cons]
      exact List.mem_append_left _ hx

theorem FIFO.egress_spec (x : Nat) (s : FIFOState) (hx : x ∈ FIFO.bucket0 s)
    (hnd : (FIFO.members s).Nodup) :
    ∃ s2, FIFO.egress x s = some s2 ∧ s2.delay = s.delay ∧
      s2.buckets.length = s.buckets.length ∧
      FIFO.members s2 = (FIFO.members s).erase x ∧
      FIFO.bucket0 s2 = (FIFO.bucket0 s).filter (fun y => y ≠ x) := by
  refine ⟨{ s with buckets := s.buckets.set 0 ((FIFO.bucket0 s).filter (fun y => y ≠ x)) },
    by rw [FIFO.egress, if_pos hx], rfl, by simp [List.length_set], ?_, ?_⟩
  · obtain ⟨d, bs⟩ := s
    cases bs with
    | nil => simp [FIFO.bucket0] at hx
    | cons b0 rest =>
        have hx0 : x ∈ b0 := by simpa [FIFO.bucket0] using hx
        have hb0nd : b0.Nodup := by
          simp only [FIFO.members, List.flatten_cons] at hnd
          exact (List.nodup_append.mp hnd).1
        simp only [FIFO.members, FIFO.bucket0, List.getD_cons_zero,
          List.set_cons_zero, List.flatten_cons]
        rw [filter_ne_eq_erase b0 x hb0nd, List.erase_append_left rest.flatten hx0]
  · obtain ⟨d, bs⟩ := s
    cases bs with
    | nil => simp [FIFO.bucket0] at hx
    | cons b0 rest =>
        simp [FIFO.bucket0, List.set_cons_zero]

/-! ### LogNormal and Sink structure lemmas -/

theorem LN.keys_draw (n : Option Nat) (s : LNState) :
    LN.keys (LN.draw n s).2 = LN.keys s := by
  simp [LN.draw, LN.keys, List.map_map, Function.comp]

theorem LN.ingress_fresh (x : Nat) (v : ℚ) (s : LNState) (h : x ∉ LN.keys s) :
    LN.ingress x v s = s ++ [(x, v)] := by
  rw [LN.ingress, if_neg h]

theorem LN.keys_snoc (x : Nat) (v : ℚ) (s : LNState) :
    LN.keys (s ++ [(x, v)]) = LN.keys s ++ [x] := by
  simp [LN.keys]

theorem LN.keys_filter (x : Nat) (s : LNState) :
    LN.keys (s.filter (fun p => p.1 ≠ x)) = (LN.keys s).filter (fun y => y ≠ x) := by
  induction s with
  | nil => rfl
  | cons p ps ih =>
      by_cases hp : p.1 = x
      · simp [LN.keys, List.filter_cons, hp] at ih ⊢; exact ih
      · simp [LN.keys, List.filter_cons, hp] at ih ⊢; exact ih

theorem LN.egress_keys (x : Nat) (s : LNState) (hx : x ∈ LN.keys s)
    (hnd : (LN.keys s).Nodup) :
    ∃ s2, LN.egress x s = some s2 ∧ LN.keys s2 = (LN.keys s).erase x := by
  refine ⟨_, by rw [LN.egress, if_pos hx], ?_⟩
  rw [LN.keys_filter, filter_ne_eq_erase _ x hnd]

/-! ### CRT step lemmas -/

theorem nodup_four {A B C D : List Nat} (h : (A ++ (B ++ (C ++ D))).Nodup) :
    A.Nodup ∧ B.Nodup ∧ C.Nodup ∧ D.Nodup ∧
    (∀ x ∈ D, x ∉ A ∧ x ∉ B ∧ x ∉ C) := by
  rcases List.nodup_append.mp h with ⟨hA, h1, dA⟩
  rcases List.nodup_append.mp h1 with ⟨hB, h2, dB⟩
  rcases List.nodup_append.mp h2 with ⟨hC, hD, dC⟩
  refine ⟨hA, hB, hC, hD, fun x hx => ⟨?_, ?_, ?_⟩⟩
  · intro hxA
    exact dA hxA (List.mem_append_right B (List.mem_append_right C hx))
  · intro hxB
    exact dB hxB (List.mem_append_right C hx)
  · intro hxC
    exact dC hxC hx

theorem nodup_flank {F D S : List Nat} (hF : F.Nodup) (hS : S.Sublist D) (hD : D.Nodup)
    (hdisj : ∀ x ∈ D, x ∉ F) : (F ++ S).Nodup := by
  refine List.nodup_append.mpr ⟨hF, hS.nodup hD, ?_⟩
  intro a haF haS
  exact hdisj a (hS.subset haS) haF

theorem CRT.next_home (day : Int) (c : CRT) (h : c.state = CRTState.home) :
    CRT.next day c = some ({ c with
      state := CRTState.rented,
      trip := some ⟨c.id, day, [(CRTState.rented, day)]⟩ },
      [⟨c.id, day, [(CRTState.rented, day)]⟩]) := by
  obtain ⟨i, st, ca, tr⟩ := c
  cases h
  rfl

theorem CRT.next_rented (day : Int) (c : CRT) (t : Trip) (h : c.state = CRTState.rented)
    (ht : c.trip = some t) :
    CRT.next day c = some ({ c with
      state := CRTState.home,
      trip := none },
      [{ t with states := t.states ++ [(CRTState.home, day)] }]) := by
  obtain ⟨i, st, ca, tr⟩ := c
  cases h
  cases ht
  rfl

theorem CRT.lose_trip (day : Int) (c : CRT) (t : Trip) (ht : c.trip = some t) :
    CRT.lose day c = some ({ c with
      state := CRTState.lost,
      trip := some { t with states := t.states ++ [(CRTState.lost, day)] } }, []) := by
  obtain ⟨i, st, ca, tr⟩ := c
  cases ht
  rfl

/-! ### The daily loop preserves the membership invariant -/

theorem processPool_spec (reqHome reqRented : List Nat) (day : Int) (o : TickOracle) :
    ∀ (cs : List CRT) (sp : SubPools) (fh fr fl : List Nat),
      sp.fifoHome.buckets.length = sp.fifoHome.delay + 1 →
      (fh ++ (fr ++ (fl ++ cs.map CRT.id))).Nodup →
      (FIFO.members sp.fifoHome).Perm (fh ++ idsInState CRTState.home cs) →
      (LN.keys sp.lnRented).Perm (fr ++ idsInState CRTState.rented cs) →
      sp.sinkLost.Perm (fl ++ idsInState CRTState.lost cs) →
      (∀ c ∈ cs, c.state = CRTState.home → c.id ∈ reqHome →
        c.id ∈ FIFO.bucket0 sp.fifoHome) →
      (∀ c ∈ cs, c.state ≠ CRTState.home → c.trip ≠ none) →
      ∃ sp2 cs2,
        processPool reqHome reqRented [] day o cs sp = some (sp2, cs2) ∧
        cs2.map CRT.id = cs.map CRT.id ∧
        sp2.fifoHome.buckets.length = sp2.fifoHome.delay + 1 ∧
        (FIFO.members sp2.fifoHome).Perm (fh ++ idsInState CRTState.home cs2) ∧
        (LN.keys sp2.lnRented).Perm (fr ++ idsInState CRTState.rented cs2) ∧
        sp2.sinkLost.Perm (fl ++ idsInState CRTState.lost cs2) ∧
        (∀ c ∈ cs2, c.state ≠ CRTState.home → c.trip ≠ none) := by
  intro cs
  induction cs with
  | nil =>
      intro sp fh fr fl hb hnd hH hR hL hreq htr
      exact ⟨sp, [], rfl, rfl, hb, by simpa using hH, by simpa using hR,
        by simpa using hL, by simp⟩  | cons c cs ih =>
      intro sp fh fr fl hb hnd hH hR hL hreq htr
      obtain ⟨cid, cst, cca, ctr⟩ := c
      have hmapc : ((⟨cid, cst, cca, ctr⟩ : CRT) :: cs).map CRT.id
          = cid :: cs.map CRT.id := rfl
      rw [hmapc] at hnd
      obtain ⟨hfh, hfr, hfl, hD, hside⟩ := nodup_four hnd
      obtain ⟨hcfh, hcfr, hcfl⟩ := hside cid (List.mem_cons_self _ _)
      have hccs : cid ∉ cs.map CRT.id := (List.nodup_cons.mp hD).1
      have hne_of_mem : ∀ c2 ∈ cs, c2.id ≠ cid := fun c2 hc2 he =>
        hccs (he ▸ List.mem_map_of_mem CRT.id hc2)
      have hndH : (fh ++ idsInState CRTState.home (⟨cid, cst, cca, ctr⟩ :: cs)).Nodup := by
        refine nodup_flank hfh ?_ hD ?_
        · simpa [poolIds] using idsInState_sublist CRTState.home (⟨cid, cst, cca, ctr⟩ :: cs)
        · intro x hx
          rcases List.mem_cons.mp hx with hx1 | hx2
          · exact hx1 ▸ hcfh
          · exact (hside x (List.mem_cons_of_mem _ hx2)).1
      have hmemnd : (FIFO.members sp.fifoHome).Nodup := hH.symm.nodup hndH
      have hndR : (fr ++ idsInState CRTState.rented (⟨cid, cst, cca, ctr⟩ :: cs)).Nodup := by
        refine nodup_flank hfr ?_ hD ?_
        · simpa [poolIds] using idsInState_sublist CRTState.rented (⟨cid, cst, cca, ctr⟩ :: cs)
        · intro x hx
          rcases List.mem_cons.mp hx with hx1 | hx2
          · exact hx1 ▸ hcfr
          · exact (hside x (List.mem_cons_of_mem _ hx2)).2.1
      have hkeynd : (LN.keys sp.lnRented).Nodup := hR.symm.nodup hndR
      have hnotin_rcs : cid ∉ idsInState CRTState.rented cs := fun h2 =>
        hccs ((idsInState_sublist CRTState.rented cs).subset h2)
      cases cst with
      | home =>
          rw [idsInState_cons_self (by rfl)] at hH
          rw [idsInState_cons_ne (by simp)] at hR
          rw [idsInState_cons_ne (by simp)] at hL
          by_cases hB : cid ∈ reqHome
          · -- the crate is due: home → rented
            have hb0 : cid ∈ FIFO.bucket0 sp.fifoHome :=
              hreq _ (List.mem_cons_self _ _) rfl hB
            obtain ⟨fh2, hegf, hdel2, hlen2, hmem2, hb02⟩ :=
              FIFO.egress_spec cid sp.fifoHome hb0 hmemnd
            have hfresh : cid ∉ LN.keys sp.lnRented := by
              rw [hR.mem_iff]
              intro hmem
              rcases List.mem_append.mp hmem with h1 | h2
              · exact hcfr h1
              · exact hnotin_rcs h2
            have hstep : stepCRT reqHome reqRented [] day o sp ⟨cid, CRTState.home, cca, ctr⟩ =
                some ({ sp with
                        fifoHome := fh2,
                        lnRented := LN.ingress cid (o.countdown cid) sp.lnRented },
                  ⟨cid, CRTState.rented, cca,
                    some ⟨cid, day, [(CRTState.rented, day)]⟩⟩) := by
              simp [stepCRT, requestFor, hB, egressFrom, hegf, CRT.next, ingressInto]
            have hH2 : (FIFO.members fh2).Perm (fh ++ idsInState CRTState.home cs) := by
              rw [hmem2]
              have h1 := hH.erase cid
              rwa [List.erase_append_right _ hcfh, List.erase_cons_head] at h1
            have hR2 : (LN.keys (LN.ingress cid (o.countdown cid) sp.lnRented)).Perm
                ((fr ++ [cid]) ++ idsInState CRTState.rented cs) := by
              rw [LN.ingress_fresh cid (o.countdown cid) sp.lnRented hfresh, LN.keys_snoc]
              exact (hR.append_right [cid]).trans
                (perm_snoc_mid cid fr (idsInState CRTState.rented cs))
            have hb2 : fh2.buckets.length = fh2.delay + 1 := by
              rw [hlen2, hdel2]; exact hb
            have hnd2 : (fh ++ ((fr ++ [cid]) ++ (fl ++ cs.map CRT.id))).Nodup :=
              (perm_block_two cid fh fr fl (cs.map CRT.id)).nodup hnd
            have hreq2 : ∀ c2 ∈ cs, c2.state = CRTState.home → c2.id ∈ reqHome →
                c2.id ∈ FIFO.bucket0 fh2 := by
              intro c2 hc2 hst hm
              rw [hb02]
              refine List.mem_filter.mpr ⟨hreq c2 (List.mem_cons_of_mem _ hc2) hst hm, ?_⟩
              simpa using hne_of_mem c2 hc2
            obtain ⟨sp2, cs2, hrec, hids, hbf, hHf, hRf, hLf, htrf⟩ :=
              ih { sp with
                   fifoHome := fh2,
                   lnRented := LN.ingress cid (o.countdown cid) sp.lnRented }
                fh (fr ++ [cid]) fl hb2 hnd2 hH2 hR2 hL hreq2
                (fun c2 hc2 => htr c2 (List.mem_cons_of_mem _ hc2))
            refine ⟨sp2, ⟨cid, CRTState.rented, cca,
              some ⟨cid, day, [(CRTState.rented, day)]⟩⟩ :: cs2, ?_, ?_, hbf, ?_, ?_, ?_, ?_⟩
            · simp [processPool, hstep, hrec]
            · simpa using hids
            · rwa [idsInState_cons_ne (by simp)]
            · rw [idsInState_cons_self (by rfl)]
              simpa [List.append_assoc] using hRf
            · rwa [idsInState_cons_ne (by simp)]
            · intro c2 hc2 hst
              rcases List.mem_cons.mp hc2 with hc2 | hc2
              · subst hc2; simp
              · exact htrf c2 hc2 hst
          · -- the crate stays home
            have hstep : stepCRT reqHome reqRented [] day o sp ⟨cid, CRTState.home, cca, ctr⟩ =
                some (sp, ⟨cid, CRTState.home, cca, ctr⟩) := by
              simp [stepCRT, requestFor, hB]
            have hH2 : (FIFO.members sp.fifoHome).Perm
                ((fh ++ [cid]) ++ idsInState CRTState.home cs) := by
              simpa [List.append_assoc] using hH
            have hnd2 : ((fh ++ [cid]) ++ (fr ++ (fl ++ cs.map CRT.id))).Nodup :=
              (perm_block_one cid fh fr fl (cs.map CRT.id)).nodup hnd
            obtain ⟨sp2, cs2, hrec, hids, hbf, hHf, hRf, hLf, htrf⟩ :=
              ih sp (fh ++ [cid]) fr fl hb hnd2 hH2 hR hL
                (fun c2 hc2 hst hm => hreq c2 (List.mem_cons_of_mem _ hc2) hst hm)
                (fun c2 hc2 => htr c2 (List.mem_cons_of_mem _ hc2))
            refine ⟨sp2, ⟨cid, CRTState.home, cca, ctr⟩ :: cs2, ?_, ?_, hbf, ?_, ?_, ?_, ?_⟩
            · simp [processPool, hstep, hrec]
            · simpa using hids
            · rw [idsInState_cons_self (by rfl)]
              simpa [List.append_assoc] using hHf
            · rwa [idsInState_cons_ne (by simp)]
            · rwa [idsInState_cons_ne (by simp)]
            · intro c2 hc2 hst
              rcases List.mem_cons.mp hc2 with hc2 | hc2
              · subst hc2
                exact htr _ (List.mem_cons_self _ _) hst
              · exact htrf c2 hc2 hst
      | rented =>
          rw [idsInState_cons_ne (by simp)] at hH
          rw [idsInState_cons_self (by rfl)] at hR
          rw [idsInState_cons_ne (by simp)] at hL
          have hctr : ctr ≠ none := htr _ (List.mem_cons_self _ _) (by simp)
          obtain ⟨t, ht⟩ := Option.ne_none_iff_exists'.mp hctr
          subst ht
          have hcidR : cid ∈ LN.keys sp.lnRented := by
            rw [hR.mem_iff]
            exact List.mem_append_right fr (List.mem_cons_self _ _)
          obtain ⟨ln2, heg, hkeys2⟩ := LN.egress_keys cid sp.lnRented hcidR hkeynd
          have hR2 : (LN.keys ln2).Perm (fr ++ idsInState CRTState.rented cs) := by
            rw [hkeys2]
            have h1 := hR.erase cid
            rwa [List.erase_append_right _ hcfr, List.erase_cons_head] at h1
          by_cases hloss : o.loss cid = true
          · -- shrinkage: rented → lost
            have hstep : stepCRT reqHome reqRented [] day o sp
                ⟨cid, CRTState.rented, cca, some t⟩ =
                some ({ sp with
                        lnRented := ln2,
                        sinkLost := Sink.ingress cid sp.sinkLost },
                  ⟨cid, CRTState.lost, cca,
                    some { t with states := t.states ++ [(CRTState.lost, day)] }⟩) := by
              simp [stepCRT, hloss, heg, CRT.lose]
            have hL2 : (Sink.ingress cid sp.sinkLost).Perm
                ((fl ++ [cid]) ++ idsInState CRTState.lost cs) := by
              exact (hL.append_right [cid]).trans
                (perm_snoc_mid cid fl (idsInState CRTState.lost cs))
            have hnd2 : (fh ++ (fr ++ ((fl ++ [cid]) ++ cs.map CRT.id))).Nodup :=
              (perm_block_three cid fh fr fl (cs.map CRT.id)).nodup hnd
            obtain ⟨sp2, cs2, hrec, hids, hbf, hHf, hRf, hLf, htrf⟩ :=
              ih { sp with
                   lnRented := ln2,
                   sinkLost := Sink.ingress cid sp.sinkLost }
                fh fr (fl ++ [cid]) hb hnd2 hH hR2 hL2
                (fun c2 hc2 hst hm => hreq c2 (List.mem_cons_of_mem _ hc2) hst hm)
                (fun c2 hc2 => htr c2 (List.mem_cons_of_mem _ hc2))
            refine ⟨sp2, ⟨cid, CRTState.lost, cca,
              some { t with states := t.states ++ [(CRTState.lost, day)] }⟩ :: cs2,
              ?_, ?_, hbf, ?_, ?_, ?_, ?_⟩
            · simp [processPool, hstep, hrec]
            · simpa using hids
            · rwa [idsInState_cons_ne (by simp)]
            · rwa [idsInState_cons_ne (by simp)]
            · rw [idsInState_cons_self (by rfl)]
              simpa [List.append_assoc] using hLf
            · intro c2 hc2 hst
              rcases List.mem_cons.mp hc2 with hc2 | hc2
              · subst hc2; simp
              · exact htrf c2 hc2 hst
          · by_cases hB : cid ∈ reqRented
            · -- the crate is due: rented → home
              have hstep : stepCRT reqHome reqRented [] day o sp
                  ⟨cid, CRTState.rented, cca, some t⟩ =
                  some ({ sp with
                          fifoHome := FIFO.ingress cid sp.fifoHome,
                          lnRented := ln2 },
                    ⟨cid, CRTState.home, cca, none⟩) := by
                simp [stepCRT, hloss, requestFor, hB, egressFrom, heg, CRT.next,
                  ingressInto]
              have hH2 : (FIFO.members (FIFO.ingress cid sp.fifoHome)).Perm
                  ((fh ++ [cid]) ++ idsInState CRTState.home cs) := by
                refine (FIFO.members_ingress cid sp.fifoHome hb).trans ?_
                exact (hH.append_right [cid]).trans
                  (perm_snoc_mid cid fh (idsInState CRTState.home cs))
              have hb2 : (FIFO.ingress cid sp.fifoHome).buckets.length =
                  (FIFO.ingress cid sp.fifoHome).delay + 1 := by
                rw [FIFO.blen_ingress, FIFO.delay_ingress]; exact hb
              have hnd2 : ((fh ++ [cid]) ++ (fr ++ (fl ++ cs.map CRT.id))).Nodup :=
                (perm_block_one cid fh fr fl (cs.map CRT.id)).nodup hnd
              have hreq2 : ∀ c2 ∈ cs, c2.state = CRTState.home → c2.id ∈ reqHome →
                  c2.id ∈ FIFO.bucket0 (FIFO.ingress cid sp.fifoHome) := by
                intro c2 hc2 hst hm
                exact FIFO.bucket0_ingress cid sp.fifoHome
                  (hreq c2 (List.mem_cons_of_mem _ hc2) hst hm)
              obtain ⟨sp2, cs2, hrec, hids, hbf, hHf, hRf, hLf, htrf⟩ :=
                ih { sp with
                     fifoHome := FIFO.ingress cid sp.fifoHome,
                     lnRented := ln2 }
                  (fh ++ [cid]) fr fl hb2 hnd2 hH2 hR2 hL hreq2
                  (fun c2 hc2 => htr c2 (List.mem_cons_of_mem _ hc2))
              refine ⟨sp2, ⟨cid, CRTState.home, cca, none⟩ :: cs2, ?_, ?_, hbf,
                ?_, ?_, ?_, ?_⟩
              · simp [processPool, hstep, hrec]
              · simpa using hids
              · rw [idsInState_cons_self (by rfl)]
                simpa [List.append_assoc] using hHf
              · rwa [idsInState_cons_ne (by simp)]
              · rwa [idsInState_cons_ne (by simp)]
              · intro c2 hc2 hst
                rcases List.mem_cons.mp hc2 with hc2 | hc2
                · subst hc2; simp at hst
                · exact htrf c2 hc2 hst
            · -- the crate stays rented
              have hstep : stepCRT reqHome reqRented [] day o sp
                  ⟨cid, CRTState.rented, cca, some t⟩ =
                  some (sp, ⟨cid, CRTState.rented, cca, some t⟩) := by
                simp [stepCRT, hloss, requestFor, hB]
              have hR3 : (LN.keys sp.lnRented).Perm
                  ((fr ++ [cid]) ++ idsInState CRTState.rented cs) := by
                simpa [List.append_assoc] using hR
              have hnd2 : (fh ++ ((fr ++ [cid]) ++ (fl ++ cs.map CRT.id))).Nodup :=
                (perm_block_two cid fh fr fl (cs.map CRT.id)).nodup hnd
              obtain ⟨sp2, cs2, hrec, hids, hbf, hHf, hRf, hLf, htrf⟩ :=
                ih sp fh (fr ++ [cid]) fl hb hnd2 hH hR3 hL
                  (fun c2 hc2 hst hm => hreq c2 (List.mem_cons_of_mem _ hc2) hst hm)
                  (fun c2 hc2 => htr c2 (List.mem_cons_of_mem _ hc2))
              refine ⟨sp2, ⟨cid, CRTState.rented, cca, some t⟩ :: cs2, ?_, ?_, hbf,
                ?_, ?_, ?_, ?_⟩
              · simp [processPool, hstep, hrec]
              · simpa using hids
              · rwa [idsInState_cons_ne (by simp)]
              · rw [idsInState_cons_self (by rfl)]
                simpa [List.append_assoc] using hRf
              · rwa [idsInState_cons_ne (by simp)]
              · intro c2 hc2 hst
                rcases List.mem_cons.mp hc2 with hc2 | hc2
                · subst hc2; simp
                · exact htrf c2 hc2 hst
      | lost =>
          rw [idsInState_cons_ne (by simp)] at hH
          rw [idsInState_cons_ne (by simp)] at hR
          rw [idsInState_cons_self (by rfl)] at hL
          have hstep : stepCRT reqHome reqRented [] day o sp
              ⟨cid, CRTState.lost, cca, ctr⟩ =
              some (sp, ⟨cid, CRTState.lost, cca, ctr⟩) := by
            simp [stepCRT, requestFor]
          have hL3 : sp.sinkLost.Perm ((fl ++ [cid]) ++ idsInState CRTState.lost cs) := by
            simpa [List.append_assoc] using hL
          have hnd2 : (fh ++ (fr ++ ((fl ++ [cid]) ++ cs.map CRT.id))).Nodup :=
            (perm_block_three cid fh fr fl (cs.map CRT.id)).nodup hnd
          obtain ⟨sp2, cs2, hrec, hids, hbf, hHf, hRf, hLf, htrf⟩ :=
            ih sp fh fr (fl ++ [cid]) hb hnd2 hH hR hL3
              (fun c2 hc2 hst hm => hreq c2 (List.mem_cons_of_mem _ hc2) hst hm)
              (fun c2 hc2 => htr c2 (List.mem_cons_of_mem _ hc2))
          refine ⟨sp2, ⟨cid, CRTState.lost, cca, ctr⟩ :: cs2, ?_, ?_, hbf, ?_, ?_, ?_, ?_⟩
          · simp [processPool, hstep, hrec]
          · simpa using hids
          · rwa [idsInState_cons_ne (by simp)]
          · rwa [idsInState_cons_ne (by simp)]
          · rw [idsInState_cons_self (by rfl)]
            simpa [List.append_assoc] using hLf
          · intro c2 hc2 hst
            rcases List.mem_cons.mp hc2 with hc2 | hc2
            · subst hc2
              exact htr _ (List.mem_cons_self _ _) hst
            · exact htrf c2 hc2 hst

/-! ### The pool invariant -/

/-- Consistency of a pool state: crate ids are duplicate-free, the FIFO has its
`delay + 1` buckets, each policy structure holds exactly the ids of the crates in its
state, every non-idle crate carries a trip, and all ids are below the id counter. -/
structure Inv (s : PoolState) : Prop where
  nodup : (poolIds s.pool).Nodup
  blen : s.fifoHome.buckets.length = s.fifoHome.delay + 1
  homePerm : (FIFO.members s.fifoHome).Perm (idsInState CRTState.home s.pool)
  rentedPerm : (LN.keys s.lnRented).Perm (idsInState CRTState.rented s.pool)
  lostPerm : s.sinkLost.Perm (idsInState CRTState.lost s.pool)
  trips : ∀ c ∈ s.pool, c.state ≠ CRTState.home → c.trip ≠ none
  fresh : ∀ c ∈ s.pool, c.id < s.nextId

theorem addNew_pool (s : PoolState) :
    (addNew s).pool = s.pool ++ [⟨s.nextId, CRTState.home, s.date, none⟩] := rfl

theorem addNew_inv (s : PoolState) (h : Inv s) : Inv (addNew s) := by
  have hids : poolIds (addNew s).pool = poolIds s.pool ++ [s.nextId] := by
    rw [addNew_pool]; simp [poolIds]
  refine ⟨?_, ?_, ?_, ?_, ?_, ?_, ?_⟩
  · rw [hids]
    refine List.nodup_append.mpr ⟨h.nodup, List.nodup_singleton _, ?_⟩
    intro a ha ha2
    rcases List.mem_map.mp ha with ⟨c, hc, hca⟩
    have := h.fresh c hc
    rcases List.mem_singleton.mp ha2 with rfl
    omega
  · show (FIFO.ingress s.nextId s.fifoHome).buckets.length =
      (FIFO.ingress s.nextId s.fifoHome).delay + 1
    rw [FIFO.blen_ingress, FIFO.delay_ingress]; exact h.blen
  · show (FIFO.members (FIFO.ingress s.nextId s.fifoHome)).Perm _
    refine (FIFO.members_ingress s.nextId s.fifoHome h.blen).trans ?_
    rw [addNew_pool, idsInState_append]
    exact h.homePerm.append_right _
  · show (LN.keys s.lnRented).Perm _
    rw [addNew_pool, idsInState_append]
    simpa [idsInState] using h.rentedPerm
  · show s.sinkLost.Perm _
    rw [addNew_pool, idsInState_append]
    simpa [idsInState] using h.lostPerm
  · rw [addNew_pool]
    intro c hc hst
    rcases List.mem_append.mp hc with hc | hc
    · exact h.trips c hc hst
    · rcases List.mem_singleton.mp hc with rfl
      simp at hst
  · rw [addNew_pool]
    intro c hc
    rcases List.mem_append.mp hc with hc | hc
    · have := h.fresh c hc
      show c.id < s.nextId + 1
      omega
    · rcases List.mem_singleton.mp hc with rfl
      show s.nextId < s.nextId + 1
      omega

theorem addNew_length (s : PoolState) : (addNew s).pool.length = s.pool.length + 1 := by
  rw [addNew_pool]; simp

/-- The replenishment loop: length bookkeeping, unconditional. -/
theorem foldl_addNew_length (n : Nat) (s : PoolState) :
    ((List.range n).foldl (fun t _ => addNew t) s).pool.length = s.pool.length + n := by
  induction n with
  | zero => simp
  | succ m ih =>
      rw [List.range_succ, List.foldl_append]
      simp only [List.foldl_cons, List.foldl_nil]
      rw [addNew_length, ih]
      omega

/-- The replenishment loop preserves the invariant. -/
theorem foldl_addNew_inv (n : Nat) (s : PoolState) (h : Inv s) :
    Inv ((List.range n).foldl (fun t _ => addNew t) s) := by
  induction n with
  | zero => simpa using h
  | succ m ih =>
      rw [List.range_succ, List.foldl_append]
      simp only [List.foldl_cons, List.foldl_nil]
      exact addNew_inv _ ih

theorem inv_date (s : PoolState) (d : Int) (h : Inv s) : Inv { s with date := d } :=
  ⟨h.nodup, h.blen, h.homePerm, h.rentedPerm, h.lostPerm, h.trips, h.fresh⟩

/-- One `proceed` call from a consistent state always succeeds, preserves the
invariant, reports the census of the new pool, and grows the population by exactly
the replenishment draw. -/
theorem proceed_spec (demand : Nat) (o : TickOracle) (s : PoolState) (h : Inv s) :
    ∃ s2 c, proceed demand o s = some (s2, c) ∧ Inv s2 ∧
      s2.pool.length = s.pool.length + o.replenish ∧ c = report s2.pool := by
  have hb1 : (FIFO.draw demand s.fifoHome).2.buckets.length =
      (FIFO.draw demand s.fifoHome).2.delay + 1 := FIFO.blen_advance s.fifoHome h.blen
  have hmem1 : FIFO.members (FIFO.draw demand s.fifoHome).2 = FIFO.members s.fifoHome :=
    FIFO.members_advance s.fifoHome h.blen
  obtain ⟨sp2, cs2, hrec, hids, hb2, hH2, hR2, hL2, htr2⟩ :=
    processPool_spec (FIFO.draw demand s.fifoHome).1 (LN.draw (some demand) s.lnRented).1
      s.date o s.pool
      ⟨(FIFO.draw demand s.fifoHome).2, (LN.draw (some demand) s.lnRented).2, s.sinkLost⟩
      [] [] [] hb1 (by simpa [poolIds] using h.nodup)
      (by rw [hmem1]; simpa using h.homePerm)
      (by rw [LN.keys_draw]; simpa using h.rentedPerm)
      (by simpa using h.lostPerm)
      (by
        intro c hc hst hm
        have hm2 : c.id ∈ FIFO.bucket0 s.fifoHome := by
          have : (FIFO.draw demand s.fifoHome).1 = (FIFO.bucket0 s.fifoHome).take demand :=
            rfl
          rw [this] at hm
          exact List.take_subset demand _ hm
        exact FIFO.bucket0_advance s.fifoHome hm2)
      h.trips
  have hmid : Inv { s with
      pool := cs2,
      fifoHome := sp2.fifoHome, lnRented := sp2.lnRented, sinkLost := sp2.sinkLost } := by
    refine ⟨?_, hb2, by simpa using hH2, by simpa using hR2, by simpa using hL2, htr2, ?_⟩
    · show (poolIds cs2).Nodup
      unfold poolIds
      rw [hids]
      exact h.nodup
    · intro c hc
      show c.id < s.nextId
      have hcin : c.id ∈ cs2.map CRT.id := List.mem_map_of_mem CRT.id hc
      rw [hids] at hcin
      rcases List.mem_map.mp hcin with ⟨c2, hc2, he⟩
      rw [← he]
      exact h.fresh c2 hc2
  set smid : PoolState := { s with
    pool := cs2,
    fifoHome := sp2.fifoHome, lnRented := sp2.lnRented, sinkLost := sp2.sinkLost }
    with hsmid
  set s3 : PoolState := (List.range o.replenish).foldl (fun t _ => addNew t) smid with hs3
  have hp : proceed demand o s =
      some ({ s3 with date := s3.date + 1 }, report ({ s3 with date := s3.date + 1 }).pool) := by
    simp only [hs3, hsmid]
    simp only [proceed, Sink.draw, hrec, Option.bind_eq_bind, Option.some_bind]
  have hinv3 : Inv s3 := foldl_addNew_inv o.replenish smid hmid
  refine ⟨{ s3 with date := s3.date + 1 }, report ({ s3 with date := s3.date + 1 }).pool,
    hp, inv_date s3 _ hinv3, ?_, rfl⟩
  show s3.pool.length = s.pool.length + o.replenish
  rw [hs3, foldl_addNew_length]
  have hlen : cs2.length = s.pool.length := by
    have := congrArg List.length hids
    simpa using this
  simp [hsmid, hlen]

/-! ### The initial pool satisfies the invariant -/

theorem mk_pool_facts (l : List Nat) (sd : Int) :
    idsInState CRTState.home (l.map (fun i => (⟨i, CRTState.home, sd, none⟩ : CRT))) = l ∧
    idsInState CRTState.rented (l.map (fun i => (⟨i, CRTState.home, sd, none⟩ : CRT))) = [] ∧
    idsInState CRTState.lost (l.map (fun i => (⟨i, CRTState.home, sd, none⟩ : CRT))) = [] ∧
    poolIds (l.map (fun i => (⟨i, CRTState.home, sd, none⟩ : CRT))) = l := by
  induction l with
  | nil => exact ⟨rfl, rfl, rfl, rfl⟩
  | cons x xs ih =>
      refine ⟨?_, ?_, ?_, ?_⟩
      · rw [List.map_cons, idsInState_cons_self (by rfl), ih.1]
      · rw [List.map_cons, idsInState_cons_ne (by simp), ih.2.1]
      · rw [List.map_cons, idsInState_cons_ne (by simp), ih.2.2.1]
      · have h4 := ih.2.2.2
        simp only [poolIds, List.map_cons] at h4 ⊢
        simp [h4]

theorem FIFO.foldl_ingress_spec (l : List Nat) :
    ∀ (s : FIFOState), s.buckets.length = s.delay + 1 →
      (l.foldl (fun f i => FIFO.ingress i f) s).buckets.length =
        (l.foldl (fun f i => FIFO.ingress i f) s).delay + 1 ∧
      (FIFO.members (l.foldl (fun f i => FIFO.ingress i f) s)).Perm
        (FIFO.members s ++ l) := by
  induction l with
  | nil => intro s hb; exact ⟨hb, by simp⟩
  | cons x xs ih =>
      intro s hb
      simp only [List.foldl_cons]
      have hb2 : (FIFO.ingress x s).buckets.length = (FIFO.ingress x s).delay + 1 := by
        rw [FIFO.blen_ingress, FIFO.delay_ingress]; exact hb
      obtain ⟨ihb, ihm⟩ := ih (FIFO.ingress x s) hb2
      refine ⟨ihb, ihm.trans ?_⟩
      have h2 := (FIFO.members_ingress x s hb).append_right xs
      simpa [List.append_assoc] using h2

theorem mk_inv (n : Nat) (m dl rr : ℚ) (sd : Int) : Inv (mkCRTPool n m dl rr sd) := by
  have hfacts := mk_pool_facts ((List.range n).map (fun i => i + 1)) sd
  have hndl : ((List.range n).map (fun i => i + 1)).Nodup :=
    List.Nodup.map (fun a b hab => by omega) (List.nodup_range n)
  have hinit : (FIFO.init 7).buckets.length = (FIFO.init 7).delay + 1 := rfl
  have hfold := FIFO.foldl_ingress_spec ((List.range n).map (fun i => i + 1))
    (FIFO.init 7) hinit
  have hpool : (mkCRTPool n m dl rr sd).pool =
      ((List.range n).map (fun i => i + 1)).map
        (fun i => (⟨i, CRTState.home, sd, none⟩ : CRT)) := rfl
  have hfifo : (mkCRTPool n m dl rr sd).fifoHome =
      ((List.range n).map (fun i => i + 1)).foldl
        (fun f i => FIFO.ingress i f) (FIFO.init 7) := rfl
  have hln : (mkCRTPool n m dl rr sd).lnRented = [] := rfl
  have hsink : (mkCRTPool n m dl rr sd).sinkLost = [] := rfl
  have hnext : (mkCRTPool n m dl rr sd).nextId = n + 1 := rfl
  refine ⟨?_, ?_, ?_, ?_, ?_, ?_, ?_⟩
  · rw [hpool, hfacts.2.2.2]
    exact hndl
  · rw [hfifo]
    exact hfold.1
  · rw [hfifo, hpool, hfacts.1]
    refine hfold.2.trans ?_
    have hie : FIFO.members (FIFO.init 7) = [] := rfl
    simp [hie]
  · rw [hln, hpool, hfacts.2.1]
    exact List.Perm.refl []
  · rw [hsink, hpool, hfacts.2.2.1]
  · rw [hpool]
    intro c hc hst
    rcases List.mem_map.mp hc with ⟨i, hi, rfl⟩
    simp at hst
  · rw [hpool, hnext]
    intro c hc
    rcases List.mem_map.mp hc with ⟨i, hi, rfl⟩
    rcases List.mem_map.mp hi with ⟨j, hj, rfl⟩
    have : j < n := List.mem_range.mp hj
    show j + 1 < n + 1
    omega

/-- Every reachable pool state is consistent. -/
theorem reachable_inv (s : PoolState) (h : Reachable s) : Inv s := by
  induction h with
  | init n m dl rr sd => exact mk_inv n m dl rr sd
  | step s demand o r hs hp ih =>
      obtain ⟨s2, c, hp2, hinv, _, _⟩ := proceed_spec demand o s ih
      rw [hp] at hp2
      injection hp2 with h2
      rw [h2]
      exact hinv
  | extend s hs ih => exact addNew_inv s ih

/-! ### Unconditional census bookkeeping -/

theorem processPool_length (reqHome reqRented reqLost : List Nat) (day : Int)
    (o : TickOracle) :
    ∀ (cs : List CRT) (sp : SubPools) (r : SubPools × List CRT),
      processPool reqHome reqRented reqLost day o cs sp = some r →
      r.2.length = cs.length := by
  intro cs
  induction cs with
  | nil =>
      intro sp r h
      simp only [processPool, Option.some.injEq] at h
      rw [← h]
  | cons c cs ih =>
      intro sp r h
      simp only [processPool, Option.bind_eq_bind] at h
      cases hstep : stepCRT reqHome reqRented reqLost day o sp c with
      | none => rw [hstep] at h; simp at h
      | some r1 =>
          rw [hstep] at h
          simp only [Option.some_bind] at h
          cases hrec : processPool reqHome reqRented reqLost day o cs r1.1 with
          | none => rw [hrec] at h; simp at h
          | some r2 =>
              rw [hrec] at h
              simp only [Option.some_bind, Option.some.injEq] at h
              rw [← h]
              have := ih r1.1 r2 hrec
              simp [this]

theorem report_sum (pool : List CRT) :
    (report pool).home + (report pool).rented + (report pool).lost = pool.length := by
  induction pool with
  | nil => rfl
  | cons c cs ih =>
      simp only [report] at ih ⊢
      cases hc : c.state <;> simp [List.filter_cons, hc] <;> omega

/-- Whatever the oracle does, a successful `proceed` returns the census of the new
pool, whose size is the old size plus the replenishment draw. -/
theorem proceed_census (demand : Nat) (o : TickOracle) (s : PoolState)
    (r : PoolState × Census) (h : proceed demand o s = some r) :
    r.2 = report r.1.pool ∧ r.1.pool.length = s.pool.length + o.replenish := by
  simp only [proceed, Option.bind_eq_bind] at h
  cases hrec : processPool (FIFO.draw demand s.fifoHome).1
      (LN.draw (some demand) s.lnRented).1 (Sink.draw (some demand) s.sinkLost).1
      s.date o s.pool
      ⟨(FIFO.draw demand s.fifoHome).2, (LN.draw (some demand) s.lnRented).2,
        (Sink.draw (some demand) s.sinkLost).2⟩ with
  | none => rw [hrec] at h; simp at h
  | some r0 =>
      rw [hrec] at h
      simp only [Option.some_bind, Option.some.injEq] at h
      rw [← h]
      refine ⟨rfl, ?_⟩
      show ((List.range o.replenish).foldl (fun t _ => addNew t) _).pool.length = _
      rw [foldl_addNew_length]
      have hl := processPool_length _ _ _ _ _ _ _ _ hrec
      simp [hl]

theorem runPool_census (ticks : List (Nat × TickOracle)) :
    ∀ (s s2 : PoolState), runPool s ticks = some s2 →
      s2.pool.length = s.pool.length + (ticks.map (fun t => t.2.replenish)).sum := by
  induction ticks with
  | nil =>
      intro s s2 h
      simp only [runPool, Option.some.injEq] at h
      rw [← h]
      simp
  | cons t ts ih =>
      intro s s2 h
      simp only [runPool, Option.bind_eq_bind] at h
      cases hp : proceed t.1 t.2 s with
      | none => rw [hp] at h; simp at h
      | some r =>
          rw [hp] at h
          simp only [Option.some_bind] at h
          have h1 := (proceed_census t.1 t.2 s r hp).2
          have h2 := ih r.1 s2 h
          simp only [List.map_cons, List.sum_cons]
          omega

/-! ### Delayed-FIFO timing -/

theorem getD_set_eq (l : List (List Nat)) (i : Nat) (b : List Nat) (h : i < l.length) :
    (l.set i b).getD i [] = b := by
  induction l generalizing i with
  | nil => simp at h
  | cons a as ih =>
      cases i with
      | zero => simp
      | succ j =>
          simp only [List.set_cons_succ, List.getD_cons_succ]
          exact ih j (by simpa using h)

theorem getD_set_ne (l : List (List Nat)) (i j : Nat) (b : List Nat) (h : i ≠ j) :
    (l.set i b).getD j [] = l.getD j [] := by
  induction l generalizing i j with
  | nil => simp
  | cons a as ih =>
      cases i with
      | zero =>
          cases j with
          | zero => exact absurd rfl h
          | succ j2 => simp
      | succ i2 =>
          cases j with
          | zero => simp
          | succ j2 =>
              simp only [List.set_cons_succ, List.getD_cons_succ]
              exact ih i2 j2 (fun he => h (by omega))

theorem getD_snoc_empty (rest : List (List Nat)) (i : Nat) :
    (rest ++ [[]]).getD i [] = rest.getD i [] := by
  by_cases hi : i < rest.length
  · exact List.getD_append _ _ _ _ hi
  · rw [List.getD_append_right _ _ _ _ (by omega)]
    rw [show rest.getD i ([] : List Nat) = [] from List.getD_eq_default _ _ (by omega)]
    cases h2 : i - rest.length with
    | zero => rfl
    | succ m => rfl

theorem FIFO.mem_getD_members (s : FIFOState) (j : Nat) {x : Nat}
    (h : x ∈ s.buckets.getD j []) : x ∈ FIFO.members s := by
  by_cases hj : j < s.buckets.length
  · rw [List.getD_eq_getElem _ _ hj] at h
    exact List.mem_flatten.mpr ⟨s.buckets[j], List.getElem_mem hj, h⟩
  · rw [List.getD_eq_default _ _ (by omega)] at h
    simp at h

/-- The element `x` is in bucket `k` and in no other bucket. -/
def FIFO.onlyIn (s : FIFOState) (k : Nat) (x : Nat) : Prop :=
  x ∈ s.buckets.getD k [] ∧ ∀ j, j ≠ k → x ∉ s.buckets.getD j []

theorem FIFO.ingress_onlyIn (x : Nat) (s : FIFOState)
    (hb : s.buckets.length = s.delay + 1) (hx : x ∉ FIFO.members s) :
    FIFO.onlyIn (FIFO.ingress x s) s.delay x := by
  have hnot : ∀ j, x ∉ s.buckets.getD j [] := fun j hj =>
    hx (FIFO.mem_getD_members s j hj)
  constructor
  · show x ∈ (s.buckets.set s.delay (s.buckets.getD s.delay [] ++ [x])).getD s.delay []
    rw [getD_set_eq _ _ _ (by omega)]
    exact List.mem_append_right _ (by simp)
  · intro j hj
    show x ∉ (s.buckets.set s.delay (s.buckets.getD s.delay [] ++ [x])).getD j []
    rw [getD_set_ne _ _ _ _ (fun he => hj he.symm)]
    exact hnot j

theorem FIFO.advance_onlyIn (s : FIFOState) (k x : Nat)
    (hb : s.buckets.length = s.delay + 1) (h : FIFO.onlyIn s k x) :
    FIFO.onlyIn (FIFO.advance s) (k - 1) x := by
  obtain ⟨d, bs⟩ := s
  simp only at hb
  by_cases hd : d = 0
  · have hid : FIFO.advance ⟨d, bs⟩ = ⟨d, bs⟩ := by simp [FIFO.advance, hd]
    rw [hid]
    have hk0 : k = 0 := by
      by_contra hk
      have h1 := h.1
      rw [List.getD_eq_default _ _ (by simp only at h1 ⊢; omega)] at h1
      simp at h1
    have hk1 : k - 1 = k := by omega
    rw [hk1]
    exact h
  · cases bs with
    | nil => simp at hb <;> omega
    | cons b0 rest1 =>
        cases rest1 with
        | nil => simp at hb <;> omega
        | cons b1 rest =>
            have hadv : FIFO.advance ⟨d, b0 :: b1 :: rest⟩ =
                ⟨d, (b0 ++ b1) :: (rest ++ [[]])⟩ := by simp [FIFO.advance, hd]
            rw [hadv]
            obtain ⟨h1, h2⟩ := h
            constructor
            · cases k with
              | zero =>
                  simp only [List.getD_cons_zero] at h1
                  show x ∈ ((b0 ++ b1) :: (rest ++ [[]])).getD 0 []
                  simp only [List.getD_cons_zero]
                  exact List.mem_append_left b1 h1
              | succ k2 =>
                  cases k2 with
                  | zero =>
                      simp only [List.getD_cons_succ, List.getD_cons_zero] at h1
                      show x ∈ ((b0 ++ b1) :: (rest ++ [[]])).getD 0 []
                      simp only [List.getD_cons_zero]
                      exact List.mem_append_right b0 h1
                  | succ k3 =>
                      simp only [List.getD_cons_succ] at h1
                      show x ∈ ((b0 ++ b1) :: (rest ++ [[]])).getD (k3 + 1) []
                      simp only [List.getD_cons_succ]
                      rw [getD_snoc_empty]
                      exact h1
            · intro j hj
              cases j with
              | zero =>
                  simp only [List.getD_cons_zero]
                  intro hmem
                  rcases List.mem_append.mp hmem with hm | hm
                  · exact h2 0 (by omega) (by simpa using hm)
                  · exact h2 1 (by omega) (by simpa using hm)
              | succ j2 =>
                  simp only [List.getD_cons_succ]
                  rw [getD_snoc_empty]
                  exact h2 (j2 + 2) (by omega)

theorem FIFO.drawSeq_onlyIn (x : Nat) :
    ∀ (ns : List Nat) (s : FIFOState) (k : Nat),
      s.buckets.length = s.delay + 1 →
      FIFO.onlyIn s k x →
      ns.length ≤ k →
      (∀ out ∈ (FIFO.drawSeq ns s).1, x ∉ out) ∧
      FIFO.onlyIn (FIFO.drawSeq ns s).2 (k - ns.length) x ∧
      (FIFO.drawSeq ns s).2.buckets.length = (FIFO.drawSeq ns s).2.delay + 1 := by
  intro ns
  induction ns with
  | nil =>
      intro s k hb ho hl
      exact ⟨by simp [FIFO.drawSeq], by simpa using ho, hb⟩
  | cons n ns ih =>
      intro s k hb ho hl
      have hk : 1 ≤ k := by
        have : ns.length + 1 ≤ k := by simpa using hl
        omega
      have hx0 : x ∉ FIFO.bucket0 s := ho.2 0 (by omega)
      have hadv := FIFO.advance_onlyIn s k x hb ho
      have hb2 := FIFO.blen_advance s hb
      have hrest := ih (FIFO.advance s) (k - 1) hb2 hadv (by simp at hl ⊢; omega)
      have hseq1 : (FIFO.drawSeq (n :: ns) s).1 =
          (FIFO.bucket0 s).take n :: (FIFO.drawSeq ns (FIFO.advance s)).1 := rfl
      have hseq2 : (FIFO.drawSeq (n :: ns) s).2 =
          (FIFO.drawSeq ns (FIFO.advance s)).2 := rfl
      refine ⟨?_, ?_, by rw [hseq2]; exact hrest.2.2⟩
      · intro out hout
        rw [hseq1] at hout
        rcases List.mem_cons.mp hout with rfl | hout2
        · intro hxin
          exact hx0 (List.take_subset n _ hxin)
        · exact hrest.1 out hout2
      · rw [hseq2]
        have harith : k - (n :: ns).length = k - 1 - ns.length := by
          simp only [List.length_cons]
          omega
        rw [harith]
        exact hrest.2.1

/-! ### Constant-delay timing -/

theorem CD.keys_after_draw (s : CDState) : CD.keys (CD.draw none s).2 = CD.keys s := by
  simp [CD.draw, CD.keys, List.map_map, Function.comp]

theorem CD.iterDraws_append (j : Nat) :
    ∀ (k : Nat) (l : List (Nat × Int)) (x : Nat) (v : Int),
      CD.iterDraws j ⟨k, l ++ [(x, v)]⟩ =
        ⟨k, (CD.iterDraws j ⟨k, l⟩).pool ++ [(x, v - j)]⟩ := by
  induction j with
  | zero => intro k l x v; simp [CD.iterDraws]
  | succ m ih =>
      intro k l x v
      show CD.iterDraws m (CD.draw none ⟨k, l ++ [(x, v)]⟩).2 = _
      have hd : (CD.draw none ⟨k, l ++ [(x, v)]⟩).2 =
          ⟨k, l.map (fun p => (p.1, p.2 - 1)) ++ [(x, v - 1)]⟩ := by
        simp [CD.draw]
      rw [hd, ih]
      have hd2 : (CD.draw none ⟨k, l⟩).2 = ⟨k, l.map (fun p => (p.1, p.2 - 1))⟩ := by
        simp [CD.draw]
      show _ = ⟨k, (CD.iterDraws m (CD.draw none ⟨k, l⟩).2).pool ++ [(x, v - ((m + 1 : Nat) : Int))]⟩
      rw [hd2]
      have harith : v - 1 - (m : Int) = v - ((m + 1 : Nat) : Int) := by push_cast; ring
      rw [harith]

theorem CD.keys_iterDraws (j : Nat) :
    ∀ s : CDState, CD.keys (CD.iterDraws j s) = CD.keys s := by
  induction j with
  | zero => intro s; rfl
  | succ m ih =>
      intro s
      show CD.keys (CD.iterDraws m (CD.draw none s).2) = _
      rw [ih, CD.keys_after_draw]

/-! ## Claim theorems -/

/-- A fixed demo oracle: no losses, countdown 0, no replenishment. -/
def demoOracle : TickOracle := ⟨fun _ => false, fun _ => 0, 0⟩

/-- C1: in every reachable pool state (after construction, `proceed` calls and crate
additions), each per-state policy structure holds exactly the ids of the crates
currently in that state, the union of the three membership structures is exactly the
pool's id set, and no id occurs twice within or across the structures (so every
transition's egress/ingress pair and every creation's home-ingress kept the structures
exact). -/
theorem policy_membership_partition (s : PoolState) (h : Reachable s) :
    (FIFO.members s.fifoHome).Perm (idsInState CRTState.home s.pool) ∧
    (LN.keys s.lnRented).Perm (idsInState CRTState.rented s.pool) ∧
    s.sinkLost.Perm (idsInState CRTState.lost s.pool) ∧
    (FIFO.members s.fifoHome ++ (LN.keys s.lnRented ++ s.sinkLost)).Perm
      (poolIds s.pool) ∧
    (FIFO.members s.fifoHome ++ (LN.keys s.lnRented ++ s.sinkLost)).Nodup := by
  have hi := reachable_inv s h
  have hunion : (FIFO.members s.fifoHome ++ (LN.keys s.lnRented ++ s.sinkLost)).Perm
      (poolIds s.pool) :=
    (hi.homePerm.append (hi.rentedPerm.append hi.lostPerm)).trans
      (idsInState_partition s.pool)
  exact ⟨hi.homePerm, hi.rentedPerm, hi.lostPerm, hunion, hunion.symm.nodup hi.nodup⟩

/-- Witness for C1 at a concrete reachable state. -/
theorem policy_membership_partition_witness :
    (FIFO.members (mkCRTPool 2 100 0 0 0).fifoHome).Perm
      (idsInState CRTState.home (mkCRTPool 2 100 0 0 0).pool) ∧
    (LN.keys (mkCRTPool 2 100 0 0 0).lnRented).Perm
      (idsInState CRTState.rented (mkCRTPool 2 100 0 0 0).pool) ∧
    (mkCRTPool 2 100 0 0 0).sinkLost.Perm
      (idsInState CRTState.lost (mkCRTPool 2 100 0 0 0).pool) ∧
    (FIFO.members (mkCRTPool 2 100 0 0 0).fifoHome ++
      (LN.keys (mkCRTPool 2 100 0 0 0).lnRented ++ (mkCRTPool 2 100 0 0 0).sinkLost)).Perm
      (poolIds (mkCRTPool 2 100 0 0 0).pool) ∧
    (FIFO.members (mkCRTPool 2 100 0 0 0).fifoHome ++
      (LN.keys (mkCRTPool 2 100 0 0 0).lnRented ++ (mkCRTPool 2 100 0 0 0).sinkLost)).Nodup :=
  policy_membership_partition (mkCRTPool 2 100 0 0 0) (Reachable.init 2 100 0 0 0)

/-- C2: every successful `proceed` returns exactly the census of the updated pool; the
three census counts always sum to the pool size; the pool size grows by exactly the
tick's replenishment draw (assets are never removed); and over any whole run from a
fresh pool, the census total equals the initial population plus all replenishment
draws. -/
theorem census_conservation :
    (∀ (s : PoolState) (demand : Nat) (o : TickOracle) (r : PoolState × Census),
      proceed demand o s = some r →
      r.2 = report r.1.pool ∧
      r.2.home + r.2.rented + r.2.lost = r.1.pool.length ∧
      r.1.pool.length = s.pool.length + o.replenish) ∧
    (∀ (n : Nat) (m dl rr : ℚ) (sd : Int) (ticks : List (Nat × TickOracle))
      (s2 : PoolState), runPool (mkCRTPool n m dl rr sd) ticks = some s2 →
      (report s2.pool).home + (report s2.pool).rented + (report s2.pool).lost =
        n + (ticks.map (fun t => t.2.replenish)).sum) := by
  constructor
  · intro s demand o r hp
    obtain ⟨h1, h2⟩ := proceed_census demand o s r hp
    refine ⟨h1, ?_, h2⟩
    rw [h1]
    exact report_sum r.1.pool
  · intro n m dl rr sd ticks s2 hrun
    rw [report_sum]
    rw [runPool_census ticks _ s2 hrun]
    have hn : (mkCRTPool n m dl rr sd).pool.length = n := by simp [mkCRTPool]
    rw [hn]

/-- Witness for C2 on a concrete one-tick run. -/
theorem census_conservation_witness :
    (runPool (mkCRTPool 0 100 0 0 0) [(0, demoOracle)]).map
      (fun s2 => (report s2.pool).home + (report s2.pool).rented + (report s2.pool).lost)
      = some (0 + ([((0 : Nat), demoOracle)].map (fun t => t.2.replenish)).sum) := by
  have hrun : runPool (mkCRTPool 0 100 0 0 0) [(0, demoOracle)] =
      some { mkCRTPool 0 100 0 0 0 with date := 1 } := by rfl
  have h := census_conservation.2 0 100 0 0 0 [(0, demoOracle)] _ hrun
  rw [hrun]
  simpa using h

/-- C9: `FIFO.egress` fails (assertion `AssertionError`, modelled as `none`) exactly
when the id is not in bucket `0` — and on failure nothing was mutated, since the
failure is raised before any write; under the orchestrator this never happens: from
every reachable state, `proceed` always succeeds (no egress assertion, no `KeyError`,
no missing trip). -/
theorem fifo_egress_defensive :
    (∀ (id : Nat) (fh : FIFOState), FIFO.egress id fh = none ↔ id ∉ FIFO.bucket0 fh) ∧
    (∀ (s : PoolState) (demand : Nat) (o : TickOracle), Reachable s →
      (proceed demand o s).isSome = true) := by
  constructor
  · intro id fh
    by_cases hx : id ∈ FIFO.bucket0 fh
    · simp [FIFO.egress, hx]
    · simp [FIFO.egress, hx]
  · intro s demand o hr
    obtain ⟨s2, c, hp, _, _, _⟩ := proceed_spec demand o s (reachable_inv s hr)
    rw [hp]
    rfl

/-- Witness for C9 at a concrete input and a concrete reachable state. -/
theorem fifo_egress_defensive_witness :
    (FIFO.egress 5 (FIFO.init 1) = none ↔ 5 ∉ FIFO.bucket0 (FIFO.init 1)) ∧
    (proceed 1 demoOracle (mkCRTPool 2 100 0 0 0)).isSome = true :=
  ⟨fifo_egress_defensive.1 5 (FIFO.init 1),
    fifo_egress_defensive.2 (mkCRTPool 2 100 0 0 0) 1 demoOracle
      (Reachable.init 2 100 0 0 0)⟩

/-- C3 counterexample: with delay `d = 1`, an id ingressed right after a draw (the
draw of tick `t`) is NOT returned by the draw of tick `t + d` even though the budget
(10) permits — that draw returns the empty list — and it is returned only by the
following draw, at tick `t + d + 1`. -/
theorem fifo_due_tick_off_by_one :
    (FIFO.draw 10 (FIFO.ingress 5 (FIFO.init 1))).1 = [] ∧
    5 ∉ (FIFO.draw 10 (FIFO.ingress 5 (FIFO.init 1))).1 ∧
    (FIFO.drawSeq [10, 10] (FIFO.ingress 5 (FIFO.init 1))).1 = [[], [5]] := by
  decide

/-- C3 amended: for the delayed-FIFO policy with delay `d`, an id ingressed after the
draw of tick `t` is not contained in the result of any of the next `d` draws (ticks
`t + 1 .. t + d`, any budgets); after those `d` draws it sits in bucket `0`, so the
draw of tick `t + d + 1` returns it, budget permitting. -/
theorem fifo_delay_timing (s : FIFOState) (x : Nat)
    (hb : s.buckets.length = s.delay + 1) (hx : x ∉ FIFO.members s) (ns : List Nat) :
    (ns.length ≤ s.delay → ∀ out ∈ (FIFO.drawSeq ns (FIFO.ingress x s)).1, x ∉ out) ∧
    (ns.length = s.delay →
      x ∈ FIFO.bucket0 ((FIFO.drawSeq ns (FIFO.ingress x s)).2) ∧
      ∀ n : Nat, (FIFO.bucket0 ((FIFO.drawSeq ns (FIFO.ingress x s)).2)).length ≤ n →
        x ∈ (FIFO.draw n ((FIFO.drawSeq ns (FIFO.ingress x s)).2)).1) := by
  have hb1 : (FIFO.ingress x s).buckets.length = (FIFO.ingress x s).delay + 1 := by
    rw [FIFO.blen_ingress, FIFO.delay_ingress]; exact hb
  have ho := FIFO.ingress_onlyIn x s hb hx
  constructor
  · intro hlen
    exact (FIFO.drawSeq_onlyIn x ns (FIFO.ingress x s) s.delay hb1 ho hlen).1
  · intro hlen
    have h := FIFO.drawSeq_onlyIn x ns (FIFO.ingress x s) s.delay hb1 ho (le_of_eq hlen)
    have hz : s.delay - ns.length = 0 := by omega
    have h0 := h.2.1
    rw [hz] at h0
    have hxb : x ∈ FIFO.bucket0 ((FIFO.drawSeq ns (FIFO.ingress x s)).2) := h0.1
    refine ⟨hxb, ?_⟩
    intro n hn
    show x ∈ (FIFO.bucket0 ((FIFO.drawSeq ns (FIFO.ingress x s)).2)).take n
    rw [List.take_of_length_le hn]
    exact hxb

/-- Witness for the amended C3 at delay 1. -/
theorem fifo_delay_timing_witness :
    5 ∈ FIFO.bucket0 ((FIFO.drawSeq [3] (FIFO.ingress 5 (FIFO.init 1))).2) :=
  ((fifo_delay_timing (FIFO.init 1) 5 rfl (by decide) [3]).2 rfl).1

/-- A concrete lost crate with its (terminated) trip. -/
def lostCrt : CRT :=
  ⟨1, CRTState.lost, 0, some ⟨1, 0, [(CRTState.rented, 0), (CRTState.lost, 3)]⟩⟩

/-- C4 counterexample: calling `next` on a lost crate is NOT a no-op — the state stays
`lost` but a second `(lost, day)` entry is appended to the trip, so a trip is not
immutable after loss under a direct `next` call. -/
theorem next_on_lost_mutates :
    (CRT.next 5 lostCrt).map Prod.fst ≠ some lostCrt ∧
    (CRT.next 5 lostCrt).map (fun r => r.1.trip) =
      some (some ⟨1, 0, [(CRTState.rented, 0), (CRTState.lost, 3), (CRTState.lost, 5)]⟩) := by
  decide

/-- C4 amended: calling `next` on a lost crate leaves the state `lost` and invokes no
reporting callback, but appends one more `(lost, day)` entry to the current trip — a
no-op on the state only, not on the trip. (The orchestrator never calls `next` on lost
crates, since the `lost` request set is always empty.) -/
theorem next_on_lost (c : CRT) (day : Int) (t : Trip) (hst : c.state = CRTState.lost)
    (ht : c.trip = some t) :
    CRT.next day c = some
      ({ c with trip := some { t with states := t.states ++ [(CRTState.lost, day)] } },
        []) := by
  obtain ⟨i, st, ca, tr⟩ := c
  cases hst
  cases ht
  rfl

/-- Witness for the amended C4 at a concrete lost crate. -/
theorem next_on_lost_witness :
    CRT.next 5 lostCrt = some
      (⟨1, CRTState.lost, 0,
        some ⟨1, 0, [(CRTState.rented, 0), (CRTState.lost, 3), (CRTState.lost, 5)]⟩⟩, []) :=
  next_on_lost lostCrt 5 ⟨1, 0, [(CRTState.rented, 0), (CRTState.lost, 3)]⟩ rfl rfl

/-- C5: `CRT.lose` does append `(lost, day)` and transition to `lost`, but it invokes
the reporting callback ZERO times, not once: the returned callback list is always
empty, also at the concrete failing input (a rented crate with an open trip). This
contradicts the code's own comment that the callback is used whenever the state
changes. -/
theorem lose_reports_nothing :
    (∀ (day : Int) (c : CRT), (CRT.lose day c).map Prod.snd =
      (CRT.lose day c).map (fun _ => ([] : List Trip))) ∧
    CRT.lose 3 ⟨1, CRTState.rented, 0, some ⟨1, 0, [(CRTState.rented, 0)]⟩⟩ =
      some (⟨1, CRTState.lost, 0,
        some ⟨1, 0, [(CRTState.rented, 0), (CRTState.lost, 3)]⟩⟩, []) := by
  constructor
  · intro day c
    obtain ⟨i, st, ca, tr⟩ := c
    cases tr <;> rfl
  · rfl

/-- C6 counterexample: the parameter set with daily loss rate `-1` and mean trip
duration `0` (both invalid per the claim; replenishment rate `0`, which is valid, so
no numpy call fails) raises nothing at construction — it produces a pool of the
requested size with the invalid values stored as-is, and the first tick even
completes. (`demoOracle` is exactly what the source's randomness yields here:
`np.random.rand() < -1` is never true and `np.random.poisson(0)` is always `0`;
the log-normal draw is not reached at demand `0`.) -/
theorem construction_accepts_invalid :
    (mkCRTPool 1 0 (-1) 0 0).pool.length = 1 ∧
    (mkCRTPool 1 0 (-1) 0 0).shrinkage_rate = -1 ∧
    (mkCRTPool 1 0 (-1) 0 0).mean_trip_duration = 0 ∧
    (proceed 0 demoOracle (mkCRTPool 1 0 (-1) 0 0)).isSome = true :=
  ⟨rfl, rfl, rfl, rfl⟩

/-- C6 amended: `CRTPool.__init__` performs no configuration validation at all and
never fails — every parameter set, including negative rates and non-positive mean
trip duration, yields a consistent pool of the requested size with the invalid values
stored unchanged, so nothing is rejected before ticks run; with a negative daily loss
rate and zero mean trip duration the resulting pool's first tick even completes. (A
negative replenishment rate does make the source raise `ValueError` — but only inside
`np.random.poisson` during `proceed`'s replenishment step at tick time, never at
construction; that tick-time error is outside this model's oracle, so no tick-success
is asserted for it.) -/
theorem construction_no_validation :
    (∀ (n : Nat) (m dl rr : ℚ) (sd : Int),
      (mkCRTPool n m dl rr sd).pool.length = n ∧
      (mkCRTPool n m dl rr sd).mean_trip_duration = m ∧
      (mkCRTPool n m dl rr sd).shrinkage_rate = dl ∧
      (mkCRTPool n m dl rr sd).replenishment_rate = rr ∧
      Inv (mkCRTPool n m dl rr sd)) ∧
    (proceed 0 demoOracle (mkCRTPool 1 0 (-1) 0 0)).isSome = true := by
  constructor
  · intro n m dl rr sd
    exact ⟨by simp [mkCRTPool], rfl, rfl, rfl, mk_inv n m dl rr sd⟩
  · rfl

/-- C7: the countdown stored by `LogNormal.ingress` is `log` of the log-normal draw,
i.e. exactly the underlying NORMAL sample — not a log-normal sample. It is therefore
negative whenever the log-normal draw is below 1 (e.g. at draw `exp (-1)` the stored
countdown is `-1 < 0`), and then the very first `draw` after ingress returns the id as
due; only for a nonnegative stored countdown does the first draw omit it. -/
theorem lognormal_stores_normal :
    (∀ y : ℝ, storedSteps y = y) ∧
    storedSteps (-1) < 0 ∧
    (LN.draw (some 1) [(5, -1)]).1 = [5] ∧
    (∀ v : ℚ, 0 ≤ v → (LN.draw (some 1) [(5, v)]).1 = []) := by
  refine ⟨fun y => Real.log_exp y, ?_, rfl, ?_⟩
  · rw [show storedSteps (-1) = -1 from Real.log_exp (-1)]
    norm_num
  · intro v hv
    have h := not_lt.mpr hv
    simp [LN.draw, List.filter_cons, h]

/-- Witness for C7's nonnegative-countdown conjunct. -/
theorem lognormal_stores_normal_witness :
    (LN.draw (some 1) [(5, 0)]).1 = [] :=
  lognormal_stores_normal.2.2.2 0 (le_refl 0)

/-- C8 counterexample: `np.random.choice` samples with replacement, so `draw 2` on the
two-member pool `[1, 2]` can return `[1, 1]` — not pairwise distinct — under the
legitimate index draw `[0, 0]` (two indices, each within bounds, with `2 ≤` the
membership size). -/
theorem scrambling_duplicates :
    Scrambling.draw 2 [0, 0] [1, 2] = [1, 1] ∧
    ¬ (Scrambling.draw 2 [0, 0] [1, 2]).Nodup ∧
    [0, 0].length = 2 ∧
    ([0, 0].all (fun i => i < [1, 2].length)) = true ∧
    ¬ 2 > [1, 2].length := by
  decide

/-- C8 amended: when `n` exceeds the membership size, `draw` returns all members;
otherwise it returns `n` ids sampled from the members WITH replacement (each drawn
index in bounds), so the result has length `n` and consists of members, but may
contain duplicates. -/
theorem scrambling_with_replacement (n : Nat) (picks pool : List Nat) :
    (n > pool.length → Scrambling.draw n picks pool = pool) ∧
    (¬ n > pool.length → picks.length = n → (∀ i ∈ picks, i < pool.length) →
      (Scrambling.draw n picks pool).length = n ∧
      ∀ x ∈ Scrambling.draw n picks pool, x ∈ pool) := by
  constructor
  · intro h
    simp [Scrambling.draw, h]
  · intro h hlen hpk
    constructor
    · simp [Scrambling.draw, if_neg h, hlen]
    · intro x hx
      simp only [Scrambling.draw, if_neg h] at hx
      rcases List.mem_map.mp hx with ⟨i, hi, rfl⟩
      rw [List.getD_eq_getElem _ _ (hpk i hi)]
      exact List.getElem_mem (hpk i hi)

/-- Witness for the amended C8. -/
theorem scrambling_with_replacement_witness :
    (Scrambling.draw 2 [0, 1] [1, 2]).length = 2 :=
  ((scrambling_with_replacement 2 [0, 1] [1, 2]).2 (by decide) (by decide)
    (by decide)).1

/-- C10: for the constant-delay policy with parameter `k`, an id ingressed (fresh) and
then subjected only to `draw` calls is contained in the result of the draw performed
after exactly `j` earlier draws iff `j = k` — i.e. it is returned by the `(k+1)`-th
draw after its ingress and by no other, since its countdown is decremented below zero
afterwards and the due test requires equality with zero. -/
theorem constant_delay_exact (s : CDState) (x : Nat) (hx : x ∉ CD.keys s) (j : Nat) :
    x ∈ (CD.draw none (CD.iterDraws j (CD.ingress x s))).1 ↔ j = s.k := by
  obtain ⟨k, l⟩ := s
  have hing : CD.ingress x ⟨k, l⟩ = ⟨k, l ++ [(x, (k : Int))]⟩ := by
    simp only [CD.ingress]
    rw [if_neg hx]
  rw [hing, CD.iterDraws_append]
  have hkeys : x ∉ CD.keys (CD.iterDraws j ⟨k, l⟩) := by
    rw [CD.keys_iterDraws]
    exact hx
  show x ∈ (CD.draw none ⟨k, (CD.iterDraws j ⟨k, l⟩).pool ++ [(x, (k : Int) - j)]⟩).1 ↔ _
  constructor
  · intro hmem
    simp only [CD.draw, List.filter_append, List.map_append, List.mem_append] at hmem
    rcases hmem with hm | hm
    · exfalso
      apply hkeys
      rcases List.mem_map.mp hm with ⟨p, hp, he⟩
      have hp2 : p ∈ (CD.iterDraws j ⟨k, l⟩).pool := List.mem_of_mem_filter hp
      exact he ▸ List.mem_map_of_mem Prod.fst hp2
    · by_cases hz : (k : Int) - (j : Int) = 0
      · show j = k
        omega
      · exfalso
        rw [show List.filter (fun p => decide (p.2 = 0)) [(x, (k : Int) - j)] = []
          from by simp [hz]] at hm
        simp at hm
  · intro hj
    subst hj
    simp only [CD.draw, List.filter_append, List.map_append, List.mem_append]
    right
    simp

/-- Witness for C10 with `k = 2`. -/
theorem constant_delay_exact_witness :
    7 ∈ (CD.draw none (CD.iterDraws 2 (CD.ingress 7 ⟨2, []⟩))).1 :=
  (constant_delay_exact ⟨2, []⟩ 7 (by decide) 2).mpr rfl

end Synthetic
